import Mathlib

/-!
Verification of the Concurrency key–value store (Go sources) against its
natural-language specification.  The definitions below are a shallow
embedding of the Go code:

* `engine` namespace — `internal/database/storage/engine` (partitioned
  in-memory map, polynomial hash with 64-bit signed wrap-around);
* `wal` namespace — `internal/database/storage/wal` (batched segmented
  write-ahead log: `writeBatch`, segment rotation, future resolution,
  `NewWAL` segment enumeration and `Recover`);
* `storage` namespace — `internal/database/storage` (role-aware façade:
  WAL-first write path, replica read-only enforcement, WAL recovery fold);
* `replication` namespace — `internal/database/storage/replication`
  (`findNextSegment` next-segment selection on the primary).

Go `int` is modelled as a 64-bit two's-complement integer: arithmetic
wraps via `wrap64`, and Go's `%` (truncated remainder) is `Int.tmod`.
Go maps are modelled as association lists whose operations preserve the
unique-key discipline of a real map.
-/

namespace engine

/-- Number of partitions of the hash table (`numPartitions = 16`). -/
def numPartitions : Nat := 16

/-- Engine error message (`ErrKeyNotFound = errors.New("key not found")`). -/
def keyNotFoundMsg : String := "key not found"

/-- Two's-complement wrap of an integer into the signed 64-bit range
`[-2^63, 2^63)`, modelling Go `int` overflow on a 64-bit platform. -/
def wrap64 (z : Int) : Int := (z + 2 ^ 63) % 2 ^ 64 - 2 ^ 63

/-- The raw polynomial hash loop of `getPartition`:
`hash = 0; for _, c := range key { hash = hash*31 + int(c) }`,
with every step wrapping as Go `int` arithmetic does. -/
def rawHash (key : String) : Int :=
  key.data.foldl (fun h c => wrap64 (h * 31 + Int.ofNat c.toNat)) 0

/-- The absolute-value step of `getPartition`:
`if hash < 0 { hash = -hash }` — the negation itself wraps, so
`-minInt64` stays `minInt64`. -/
def absStep (h : Int) : Int := if h < 0 then wrap64 (-h) else h

/-- `getPartition` from `engine`: polynomial hash, absolute value,
then Go's truncated remainder `% numPartitions`. -/
def getPartition (key : String) : Int :=
  (absStep (rawHash key)).tmod (Int.ofNat numPartitions)

/-- The partition array index chosen for a key. -/
def partIdx (key : String) : Nat := (getPartition key).toNat

/-- One partition's map, `map[string]string`, as an association list. -/
abbrev KV := List (String × String)

/-- Go map read `v, ok := m[k]`: the value bound to `k`, if any. -/
def mapGet (m : KV) (k : String) : Option String :=
  match m with
  | [] => none
  | (k', v') :: rest => if k' = k then some v' else mapGet rest k

/-- Go map write `m[k] = v`: replace the binding of `k` or add it. -/
def mapSet (m : KV) (k v : String) : KV :=
  match m with
  | [] => [(k, v)]
  | (k', v') :: rest => if k' = k then (k, v) :: rest else (k', v') :: mapSet rest k v

/-- Go map delete `delete(m, k)`: remove the binding of `k`. -/
def mapDel (m : KV) (k : String) : KV :=
  m.filter (fun p => decide (p.1 ≠ k))

/-- The `InMemoryEngine`: an array of `numPartitions` partitions,
each holding one map.  (The per-partition RW locks guard concurrent
access only and do not affect sequential semantics.) -/
abbrev EngineT := List KV

/-- `NewInMemoryEngine`: every partition starts empty. -/
def newInMemoryEngine : EngineT := List.replicate numPartitions []

/-- `InMemoryEngine.Set`: store the pair in the key's partition. -/
def engineSet (e : EngineT) (k v : String) : EngineT :=
  e.set (partIdx k) (mapSet (e.getD (partIdx k) []) k v)

/-- `InMemoryEngine.Get`: look the key up in its partition; absent keys
report `key not found`. -/
def engineGet (e : EngineT) (k : String) : Except String String :=
  match mapGet (e.getD (partIdx k) []) k with
  | some v => .ok v
  | none => .error keyNotFoundMsg

/-- `InMemoryEngine.Delete`: if the key is absent return `key not found`
and leave the engine unchanged; else remove the binding.  The first
component is the returned error, the second the resulting engine. -/
def engineDelete (e : EngineT) (k : String) : Option String × EngineT :=
  let m := e.getD (partIdx k) []
  if (mapGet m k).isSome then
    (none, e.set (partIdx k) (mapDel m k))
  else
    (some keyNotFoundMsg, e)

/-- The binding of `k` visible through the engine (the key's partition's
map entry), used to relate the partitioned engine to one abstract map. -/
def engineLookup (e : EngineT) (k : String) : Option String :=
  mapGet (e.getD (partIdx k) []) k

/-- Well-formedness: the partition array has exactly `numPartitions`
entries, as built by `NewInMemoryEngine`. -/
def WF (e : EngineT) : Prop := e.length = numPartitions

instance (e : EngineT) : Decidable (WF e) := by unfold WF; infer_instance

/-! ### Folding sequences of engine operations

These mirror the loops of `TestPartitionedEngine`: insert `key0..key999`
with values `value0..value999`, then delete every even-indexed key. -/

/-- Insert `(κ i, ν i)` for each `i` in `l`, left to right. -/
def setFold (κ ν : Nat → String) (e : EngineT) (l : List Nat) : EngineT :=
  l.foldl (fun e i => engineSet e (κ i) (ν i)) e

/-- Delete `κ i` for each `i` in `l`, left to right. -/
def delFold (κ : Nat → String) (e : EngineT) (l : List Nat) : EngineT :=
  l.foldl (fun e i => (engineDelete e (κ i)).2) e

/-! ### The keys and values of `TestPartitionedEngine`

The test generates keys `fmt.Sprintf("key%d", i)` and values
`fmt.Sprintf("value%d", i)`. -/

/-- `fmt.Sprintf("key%d", i)`. -/
def mkKey (i : Nat) : String := "key" ++ Nat.repr i

/-- `fmt.Sprintf("value%d", i)`. -/
def mkVal (i : Nat) : String := "value" ++ Nat.repr i

/-- Decimal digit parser used only to show the test keys are distinct. -/
def digitsToNat : List Char → Option Nat → Option Nat
  | [], acc => acc
  | c :: cs, acc =>
    if 48 ≤ c.toNat ∧ c.toNat ≤ 57 then
      digitsToNat cs (some ((acc.getD 0) * 10 + (c.toNat - 48)))
    else none

/-- Recover `i` from `mkKey i`. -/
def parseKey (s : String) : Option Nat :=
  match s.data with
  | 'k' :: 'e' :: 'y' :: rest => digitsToNat rest none
  | _ => none

/-- Engine state of the test after inserting `key0..key999`. -/
def testEngineAfterSets : EngineT :=
  setFold mkKey mkVal newInMemoryEngine (List.range 1000)

/-- Engine state of the test after additionally deleting every
even-indexed key (`for i := 0; i < 1000; i += 2`). -/
def testEngineFinal : EngineT :=
  delFold mkKey testEngineAfterSets ((List.range 500).map (fun j => 2 * j))

end engine

namespace wal

/-- `OperationSet = "SET"`. -/
def OperationSet : String := "SET"

/-- `OperationDel = "DEL"`. -/
def OperationDel : String := "DEL"

/-- A WAL record (`Log`): LSN, operation and arguments. -/
structure Log where
  lsn : Nat
  operation : String
  args : List String
deriving DecidableEq

/-- A queued write (`WriteRequest`); its single-shot `Done` future is
modelled by the per-request outcome list `writeBatch` returns. -/
structure WriteRequest where
  log : Log
deriving DecidableEq

/-- Frames are byte strings (`[]byte`); a written frame is the JSON
batch followed by the `'\n'` terminator (byte 10). -/
abbrev Frame := List Nat

/-- On-disk state of the WAL directory: each file name mapped to the
list of frames appended to it, in order.  Appending a frame with one
`Write` call adds one element to one file's list, so "a frame never
spans two files" is visible in this representation. -/
abbrev FileSys := List (String × List Frame)

/-- Frames of a file (empty if the file does not exist yet). -/
def fsFrames (fs : FileSys) (name : String) : List Frame :=
  match fs with
  | [] => []
  | (n, c) :: rest => if n = name then c else fsFrames rest name

/-- Append one frame to a file with a single write call, creating the
file when absent (`os.OpenFile` with `O_CREATE|O_APPEND`). -/
def fsAppend (fs : FileSys) (name : String) (frame : Frame) : FileSys :=
  match fs with
  | [] => [(name, [frame])]
  | (n, c) :: rest =>
    if n = name then (n, c ++ [frame]) :: rest else (n, c) :: fsAppend rest name frame

/-- `filepath.Join(dataDirectory, fmt.Sprintf("wal_%d.log", n))`. -/
def walSegmentName (dir : String) (n : Nat) : String :=
  dir ++ "/wal_" ++ Nat.repr n ++ ".log"

/-- The mutable fields of `WAL` that `writeBatch` touches, plus the
modelled file system. -/
structure WALState where
  maxSegmentSize : Int
  dataDirectory : String
  currentName : String
  currentSize : Int
  segments : List String
  files : FileSys
deriving DecidableEq

/-- Fault injection for the I/O steps of `writeBatch`: the error (if
any) returned by `json.Marshal`, by `os.OpenFile` during rotation, by
`File.Write` and by `File.Sync`. -/
structure FaultEnv where
  marshalErr : Option String
  openErr : Option String
  writeErr : Option String
  syncErr : Option String
deriving DecidableEq

/-- The environment in which every I/O step succeeds. -/
def noFault : FaultEnv := ⟨none, none, none, none⟩

/-- `completeAllWithError`: every future of the batch resolves with `err`. -/
def completeAllWithError (batch : List WriteRequest) (err : String) : List (Option String) :=
  batch.map fun _ => some err

/-- `completeAllWithSuccess`: every future of the batch resolves with success. -/
def completeAllWithSuccess (batch : List WriteRequest) : List (Option String) :=
  batch.map fun _ => none

/-- The write/sync tail of `writeBatch`, after the rotation check:
append `data ++ '\n'` to the current file with one write call, then
sync, then update `currentSize`.  On a write error nothing is recorded;
on a sync error the frame is on disk but `currentSize` stays, exactly
as in the source. -/
def writeFrame (env : FaultEnv) (s : WALState) (data : List Nat)
    (batch : List WriteRequest) : WALState × List (Option String) :=
  match env.writeErr with
  | some e => (s, completeAllWithError batch e)
  | none =>
    let s1 := { s with files := fsAppend s.files s.currentName (data ++ [10]) }
    match env.syncErr with
    | some e => (s1, completeAllWithError batch e)
    | none =>
      ({ s1 with currentSize := s1.currentSize + (Int.ofNat data.length + 1) },
        completeAllWithSuccess batch)

/-- `writeBatch`: serialize the batch, rotate the segment when
`currentSize + len(data)+1 > MaxSegmentSize` (closing the active file
and creating `wal_<len(segments)>.log`), write the frame, sync, and
resolve every future of the batch with the common outcome. -/
def writeBatch (encode : List Log → List Nat) (env : FaultEnv) (s : WALState)
    (batch : List WriteRequest) : WALState × List (Option String) :=
  if batch.isEmpty then (s, [])
  else
    match env.marshalErr with
    | some e => (s, completeAllWithError batch e)
    | none =>
      let data := encode (batch.map (·.log))
      if s.currentSize + (Int.ofNat data.length + 1) > s.maxSegmentSize then
        match env.openErr with
        | some e => (s, completeAllWithError batch e)
        | none =>
          let newName := walSegmentName s.dataDirectory s.segments.length
          writeFrame env
            { s with currentName := newName, currentSize := 0,
                     segments := s.segments ++ [newName] }
            data batch
      else
        writeFrame env s data batch

/-! ### Segment enumeration at boot (`NewWAL`) and `Recover` -/

/-- Byte-wise (code-point) prefix test on characters. -/
def charListPrefix : List Char → List Char → Bool
  | [], _ => true
  | _ :: _, [] => false
  | a :: as, b :: bs => a.toNat == b.toNat && charListPrefix as bs

/-- Whether a file name matches the glob pattern `wal_*.log`. -/
def matchWalPattern (name : String) : Bool :=
  charListPrefix "wal_".data name.data &&
    charListPrefix ".log".data.reverse name.data.reverse

/-- Go byte-wise string comparison (on ASCII names this is exactly the
order `filepath.Glob` and `sort.Strings` use). -/
def charListLt : List Char → List Char → Bool
  | [], [] => false
  | [], _ :: _ => true
  | _ :: _, [] => false
  | a :: as, b :: bs =>
    if a.toNat < b.toNat then true
    else if b.toNat < a.toNat then false
    else charListLt as bs

/-- `a < b` in Go's string order. -/
def strLtGo (a b : String) : Bool := charListLt a.data b.data

/-- Insert into a sorted list (ascending `strLtGo`). -/
def insertSorted (x : String) : List String → List String
  | [] => [x]
  | y :: ys => if strLtGo x y then x :: y :: ys else y :: insertSorted x ys

/-- Sort file names ascending, as `filepath.Glob` returns them. -/
def sortStrings : List String → List String
  | [] => []
  | x :: xs => insertSorted x (sortStrings xs)

/-- A WAL directory as `Recover` sees it: each file name paired with
the records decoded from that file, in file order. -/
abbrev WalDir := List (String × List Log)

/-- The records of one file of the directory. -/
def fileLogs (dir : WalDir) (name : String) : List Log :=
  match dir with
  | [] => []
  | (n, c) :: rest => if n = name then c else fileLogs rest name

/-- The segment list `NewWAL` builds when the directory already holds
segments: `filepath.Glob(dir, "wal_*.log")`, whose result is sorted
lexicographically by name. -/
def newWALSegments (dir : WalDir) : List String :=
  sortStrings ((dir.map (·.1)).filter matchWalPattern)

/-- `readLogs`: concatenate the decoded records of the given segments
in segment-list order. -/
def readLogs (dir : WalDir) (segments : List String) : List Log :=
  match segments with
  | [] => []
  | seg :: rest => fileLogs dir seg ++ readLogs dir rest

/-- `Recover()` on a WAL instance freshly opened over `dir`:
`readLogs` over the segment list `NewWAL` enumerated. -/
def recoverReopened (dir : WalDir) : List Log :=
  readLogs dir (newWALSegments dir)

end wal

namespace replication

/-- `contains`: linear membership scan over the segment list. -/
def contains (slice : List String) (value : String) : Bool :=
  match slice with
  | [] => false
  | item :: rest => if item = value then true else contains rest value

/-- The search loop of `findNextSegment`: return `segments[i+1]` for
the first index `i` with `segments[i] == last && i < len(segments)-1`. -/
def scanNext (last : String) : List String → Option String
  | [] => none
  | [_] => none
  | a :: b :: rest => if a = last then some b else scanNext last (b :: rest)

/-- `findNextSegment` on an already-listed (sorted) segment slice:
empty slice → `""`; `last == ""` → first segment; else the successor of
the first matching index; `last` unknown → first segment; `last` is the
final segment → `""` (replica is up to date). -/
def findNextSegment (segments : List String) (lastSegmentName : String) : String :=
  if segments.isEmpty then ""
  else if lastSegmentName = "" then segments.headD ""
  else
    match scanNext lastSegmentName segments with
    | some nxt => nxt
    | none =>
      if contains segments lastSegmentName then "" else segments.headD ""

end replication

namespace storage

open engine wal

/-- The replica write-rejection error of `SimpleStorage.Set`/`Delete`. -/
def writeOnReplicaMsg : String := "write operations not allowed on slave replica"

/-- The fields of `SimpleStorage` (with its WAL) that the sequential
write path touches: the engine, whether a WAL is attached, the role
flag, and the WAL's pending record log with its LSN counter. -/
structure SimpleStorage where
  engine : EngineT
  walEnabled : Bool
  isMaster : Bool
  nextLSN : Nat
  walLog : List Log
deriving DecidableEq

/-- `wal.push`: assign the next LSN and append the record. -/
def walPush (st : SimpleStorage) (op : String) (args : List String) : SimpleStorage :=
  { st with
      walLog := st.walLog ++ [⟨st.nextLSN, op, args⟩],
      nextLSN := st.nextLSN + 1 }

/-- `SimpleStorage.Set`: reject on a replica; else push the record to
the WAL and await its future (`walFut` is the awaited outcome); on a
WAL error propagate it without touching the engine; else mutate the
engine. -/
def setOp (st : SimpleStorage) (walFut : Option String) (k v : String) :
    Option String × SimpleStorage :=
  if st.isMaster = false then (some writeOnReplicaMsg, st)
  else if st.walEnabled then
    let st1 := walPush st OperationSet [k, v]
    match walFut with
    | some e => (some e, st1)
    | none => (none, { st1 with engine := engineSet st1.engine k v })
  else (none, { st with engine := engineSet st.engine k v })

/-- `SimpleStorage.Delete`: reject on a replica; else push the `DEL`
record and await its future; on a WAL error propagate it without
touching the engine; else delete from the engine, propagating the
engine's `key not found`. -/
def delOp (st : SimpleStorage) (walFut : Option String) (k : String) :
    Option String × SimpleStorage :=
  if st.isMaster = false then (some writeOnReplicaMsg, st)
  else if st.walEnabled then
    let st1 := walPush st OperationDel [k]
    match walFut with
    | some e => (some e, st1)
    | none =>
      let r := engineDelete st1.engine k
      (r.1, { st1 with engine := r.2 })
  else
    let r := engineDelete st.engine k
    (r.1, { st with engine := r.2 })

/-- `SimpleStorage.Get`: always served from the local engine, with no
role check. -/
def getOp (st : SimpleStorage) (k : String) : Except String String :=
  engineGet st.engine k

/-- One step of `recoverFromWAL`'s loop: apply a recovered record to
the engine.  A `SET` needs at least two args, a `DEL` at least one;
engine errors (in particular `key not found` on a `DEL`) are logged
and ignored, so the fold is total. -/
def applyLog (e : EngineT) (l : Log) : EngineT :=
  if l.operation = OperationSet then
    if 2 ≤ l.args.length then engineSet e (l.args.getD 0 "") (l.args.getD 1 "") else e
  else if l.operation = OperationDel then
    if 1 ≤ l.args.length then (engineDelete e (l.args.getD 0 "")).2 else e
  else e

/-- `recoverFromWAL`: apply every recovered record, in order, to the
engine `NewStorage` was given. -/
def recoverFromWAL (e : EngineT) (logs : List Log) : EngineT :=
  logs.foldl applyLog e

/-- The specification's view of recovery (from the claim's words, for
comparison with `recoverFromWAL`): a left fold of the records over one
empty flat map, where a `SET` with ≥ 2 args inserts or overwrites and a
`DEL` with ≥ 1 arg removes. -/
def specApplyRecord (m : KV) (l : Log) : KV :=
  if l.operation = "SET" ∧ 2 ≤ l.args.length then
    mapSet m (l.args.getD 0 "") (l.args.getD 1 "")
  else if l.operation = "DEL" ∧ 1 ≤ l.args.length then
    mapDel m (l.args.getD 0 "")
  else m

/-- The left fold of the records over the empty map, per the claim. -/
def specFold (logs : List Log) : KV :=
  logs.foldl specApplyRecord []

end storage

/-- A WAL directory left behind by eleven rotations: segment
`wal_<i>.log` holds the record with LSN `i`, matching the strictly
increasing LSN order in which the writer created the segments. -/
def c3Dir : wal.WalDir :=
  (List.range 11).map
    (fun i => (("wal_" ++ Nat.repr i ++ ".log" : String), [⟨i, "SET", ["k", "v"]⟩]))

/-- A concrete state for the C5/C6 witnesses: one existing segment of
four bytes, with a four-byte cap so the next two-byte frame forces a
rotation. -/
def c5State : wal.WALState :=
  { maxSegmentSize := 4
    dataDirectory := "wal"
    currentName := "wal/wal_0.log"
    currentSize := 4
    segments := ["wal/wal_0.log"]
    files := [("wal/wal_0.log", [[65, 66, 67], [68]])] }

namespace engine

/-! ### Arithmetic facts about the partition hash -/

theorem wrap64_mem (z : Int) : -(2 ^ 63) ≤ wrap64 z ∧ wrap64 z < 2 ^ 63 := by
  unfold wrap64
  have h1 : (0 : Int) ≤ (z + 2 ^ 63) % 2 ^ 64 := Int.emod_nonneg _ (by norm_num)
  have h2 : (z + 2 ^ 63) % 2 ^ 64 < 2 ^ 64 := Int.emod_lt_of_pos _ (by norm_num)
  omega

theorem wrap64_eq_self (z : Int) (h1 : -(2 ^ 63) ≤ z) (h2 : z < 2 ^ 63) :
    wrap64 z = z := by
  unfold wrap64
  rw [Int.emod_eq_of_lt (by omega) (by omega)]
  omega

theorem rawHash_mem (key : String) :
    -(2 ^ 63) ≤ rawHash key ∧ rawHash key < 2 ^ 63 := by
  unfold rawHash
  have aux : ∀ (l : List Char) (h : Int), -(2 ^ 63) ≤ h ∧ h < 2 ^ 63 →
      -(2 ^ 63) ≤ l.foldl (fun h c => wrap64 (h * 31 + Int.ofNat c.toNat)) h ∧
        l.foldl (fun h c => wrap64 (h * 31 + Int.ofNat c.toNat)) h < 2 ^ 63 := by
    intro l
    induction l with
    | nil => exact fun h hh => hh
    | cons c cs ih => exact fun h _ => ih _ (wrap64_mem _)
  exact aux key.data 0 (by norm_num)

theorem absStep_cases (h : Int) (hm : -(2 ^ 63) ≤ h ∧ h < 2 ^ 63) :
    (0 ≤ absStep h ∧ absStep h < 2 ^ 63) ∨ absStep h = -(2 ^ 63) := by
  unfold absStep
  by_cases hneg : h < 0
  · simp only [hneg, if_true]
    by_cases hmin : h = -(2 ^ 63)
    · right
      subst hmin
      decide
    · left
      rw [wrap64_eq_self (-h) (by omega) (by omega)]
      omega
  · left
    simp only [hneg, if_false]
    omega

theorem getPartition_bounds (key : String) :
    0 ≤ getPartition key ∧ getPartition key < 16 := by
  unfold getPartition
  rcases absStep_cases (rawHash key) (rawHash_mem key) with ⟨h0, _⟩ | hmin
  · exact ⟨Int.tmod_nonneg _ h0, Int.tmod_lt_of_pos _ (by norm_num [numPartitions])⟩
  · rw [hmin]
    decide

theorem partIdx_lt (key : String) : partIdx key < numPartitions := by
  have := getPartition_bounds key
  unfold partIdx numPartitions
  omega

/-! ### Association-list map lemmas -/

theorem mapGet_mapSet (m : KV) (k v k') :
    mapGet (mapSet m k v) k' = if k = k' then some v else mapGet m k' := by
  induction m with
  | nil =>
    by_cases h : k = k' <;> simp [mapSet, mapGet, h]
  | cons p rest ih =>
    obtain ⟨k₀, v₀⟩ := p
    by_cases h0 : k₀ = k
    · subst h0
      by_cases h : k₀ = k' <;> simp [mapSet, mapGet, h, ih]
    · by_cases h : k₀ = k'
      · subst h
        have hkk : ¬ k = k₀ := fun hh => h0 hh.symm
        simp [mapSet, mapGet, h0, hkk, ih]
      · simp [mapSet, mapGet, h0, h, ih]

theorem mapGet_mapDel (m : KV) (k k') :
    mapGet (mapDel m k) k' = if k = k' then none else mapGet m k' := by
  induction m with
  | nil => by_cases h : k = k' <;> simp [mapDel, mapGet, h]
  | cons p rest ih =>
    obtain ⟨k₀, v₀⟩ := p
    have hstep : mapDel ((k₀, v₀) :: rest) k =
        if k₀ ≠ k then (k₀, v₀) :: mapDel rest k else mapDel rest k := by
      simp only [mapDel, List.filter]
      by_cases h0 : k₀ = k <;> simp [h0]
    by_cases h0 : k₀ = k
    · rw [hstep]
      simp only [h0, ne_eq, not_true_eq_false, if_false]
      rw [ih]
      by_cases h : k = k'
      · simp [h]
      · have hk0 : k₀ ≠ k' := h0 ▸ h
        simp [h, mapGet, hk0]
    · rw [hstep]
      simp only [ne_eq, h0, not_false_eq_true, if_true]
      by_cases h : k₀ = k'
      · have hkk : ¬ k = k' := fun hh => h0 (hh.trans h.symm).symm
        simp [mapGet, h, hkk]
      · simp [mapGet, h, ih]

/-! ### `List.set`/`getD` helpers -/

theorem getD_set_self {α : Type} (l : List α) (i : Nat) (a d : α) (h : i < l.length) :
    (l.set i a).getD i d = a := by
  induction l generalizing i with
  | nil => simp at h
  | cons x xs ih =>
    cases i with
    | zero => simp [List.set, List.getD]
    | succ n =>
      simp only [List.set, List.getD_cons_succ]
      exact ih n (by simpa using h)

theorem getD_set_ne {α : Type} (l : List α) (i j : Nat) (a d : α) (h : i ≠ j) :
    (l.set i a).getD j d = l.getD j d := by
  induction l generalizing i j with
  | nil => simp [List.set]
  | cons x xs ih =>
    cases i with
    | zero =>
      cases j with
      | zero => exact absurd rfl h
      | succ m => simp [List.set, List.getD_cons_succ]
    | succ n =>
      cases j with
      | zero => simp [List.set, List.getD_cons_zero]
      | succ m =>
        simp only [List.set, List.getD_cons_succ]
        exact ih n m (fun hh => h (by omega))

end engine

namespace engine

/-! ### Pointwise behaviour of the partitioned engine -/

theorem WF_newInMemoryEngine : WF newInMemoryEngine := by
  simp [WF, newInMemoryEngine]

theorem WF_engineSet (e : EngineT) (k v : String) (h : WF e) : WF (engineSet e k v) := by
  simpa [WF, engineSet] using h

theorem WF_engineDelete (e : EngineT) (k : String) (h : WF e) :
    WF (engineDelete e k).2 := by
  unfold engineDelete WF
  by_cases hc : (mapGet (e.getD (partIdx k) []) k).isSome
  · simp only [hc, if_true]
    simpa [List.length_set] using h
  · simp only [hc, if_false]
    exact h

theorem engineLookup_engineSet (e : EngineT) (k v k' : String) (hw : WF e) :
    engineLookup (engineSet e k v) k' = if k = k' then some v else engineLookup e k' := by
  unfold engineLookup engineSet
  have hlt : partIdx k < e.length := by rw [hw]; exact partIdx_lt k
  by_cases hp : partIdx k = partIdx k'
  · rw [← hp, getD_set_self _ _ _ _ hlt, mapGet_mapSet]
  · rw [getD_set_ne _ _ _ _ _ hp]
    have hkk : ¬ k = k' := fun hh => hp (hh ▸ rfl)
    simp [hkk]

theorem engineLookup_engineDelete (e : EngineT) (k k' : String) (hw : WF e) :
    engineLookup (engineDelete e k).2 k' = if k = k' then none else engineLookup e k' := by
  unfold engineLookup engineDelete
  have hlt : partIdx k < e.length := by rw [hw]; exact partIdx_lt k
  cases hmg : mapGet (e.getD (partIdx k) []) k with
  | some v =>
    simp only [hmg, Option.isSome_some, if_true]
    by_cases hp : partIdx k = partIdx k'
    · rw [← hp, getD_set_self _ _ _ _ hlt, mapGet_mapDel]
    · rw [getD_set_ne _ _ _ _ _ hp]
      have hkk : ¬ k = k' := fun hh => hp (hh ▸ rfl)
      simp [hkk]
  | none =>
    simp only [hmg, Option.isSome_none, Bool.false_eq_true, if_false]
    by_cases hkk : k = k'
    · subst hkk
      simp only [if_true]
      exact hmg
    · simp [hkk]

/-- `engineGet` is determined by `engineLookup`. -/
theorem engineGet_eq_lookup (e : EngineT) (k : String) :
    engineGet e k = match engineLookup e k with
      | some v => .ok v
      | none => .error keyNotFoundMsg := rfl

/-- The error component of `engineDelete` is `key not found` exactly when
the key is absent, and deleting an absent key leaves the engine unchanged. -/
theorem engineDelete_spec (e : EngineT) (k : String) :
    (engineLookup e k = none →
      engineDelete e k = (some keyNotFoundMsg, e)) ∧
    ((engineLookup e k).isSome →
      (engineDelete e k).1 = none) := by
  unfold engineDelete engineLookup
  simp only [List.getD]
  cases hmg : mapGet (e[partIdx k]?.getD []) k with
  | some v => exact ⟨fun hn => by simp [hmg] at hn, fun _ => by simp [hmg]⟩
  | none => exact ⟨fun _ => by simp [hmg], fun hs => by simp [hmg] at hs⟩

end engine

namespace engine

theorem WF_setFold (κ ν : Nat → String) (e : EngineT) (l : List Nat) (hw : WF e) :
    WF (setFold κ ν e l) := by
  induction l generalizing e with
  | nil => exact hw
  | cons a t ih => exact ih _ (WF_engineSet _ _ _ hw)

theorem WF_delFold (κ : Nat → String) (e : EngineT) (l : List Nat) (hw : WF e) :
    WF (delFold κ e l) := by
  induction l generalizing e with
  | nil => exact hw
  | cons a t ih => exact ih _ (WF_engineDelete _ _ hw)

theorem lookup_setFold_not_mem (κ ν : Nat → String) (e : EngineT) (l : List Nat)
    (k : String) (hw : WF e) (hnm : ∀ j ∈ l, κ j ≠ k) :
    engineLookup (setFold κ ν e l) k = engineLookup e k := by
  induction l generalizing e with
  | nil => rfl
  | cons a t ih =>
    have step : engineLookup (setFold κ ν (engineSet e (κ a) (ν a)) t) k =
        engineLookup (engineSet e (κ a) (ν a)) k :=
      ih _ (WF_engineSet _ _ _ hw) (fun j hj => hnm j (List.mem_cons_of_mem _ hj))
    rw [show setFold κ ν e (a :: t) = setFold κ ν (engineSet e (κ a) (ν a)) t from rfl,
      step, engineLookup_engineSet _ _ _ _ hw]
    have : κ a ≠ k := hnm a (List.mem_cons_self _ _)
    simp [this]

theorem lookup_setFold_mem (κ ν : Nat → String) (e : EngineT) (l : List Nat)
    (i : Nat) (hw : WF e) (hm : i ∈ l) (hu : ∀ j ∈ l, κ j = κ i → j = i) :
    engineLookup (setFold κ ν e l) (κ i) = some (ν i) := by
  induction l generalizing e with
  | nil => cases hm
  | cons a t ih =>
    rw [show setFold κ ν e (a :: t) = setFold κ ν (engineSet e (κ a) (ν a)) t from rfl]
    by_cases hit : i ∈ t
    · exact ih _ (WF_engineSet _ _ _ hw) hit
        (fun j hj => hu j (List.mem_cons_of_mem _ hj))
    · have hia : i = a := by
        rcases List.mem_cons.mp hm with h | h
        · exact h
        · exact absurd h hit
      subst hia
      have hnm : ∀ j ∈ t, κ j ≠ κ i := by
        intro j hj hkj
        exact hit (hu j (List.mem_cons_of_mem _ hj) hkj ▸ hj)
      rw [lookup_setFold_not_mem κ ν _ t (κ i) (WF_engineSet _ _ _ hw) hnm,
        engineLookup_engineSet _ _ _ _ hw]
      simp

theorem lookup_delFold_not_mem (κ : Nat → String) (e : EngineT) (l : List Nat)
    (k : String) (hw : WF e) (hnm : ∀ j ∈ l, κ j ≠ k) :
    engineLookup (delFold κ e l) k = engineLookup e k := by
  induction l generalizing e with
  | nil => rfl
  | cons a t ih =>
    have step : engineLookup (delFold κ (engineDelete e (κ a)).2 t) k =
        engineLookup (engineDelete e (κ a)).2 k :=
      ih _ (WF_engineDelete _ _ hw) (fun j hj => hnm j (List.mem_cons_of_mem _ hj))
    rw [show delFold κ e (a :: t) = delFold κ (engineDelete e (κ a)).2 t from rfl,
      step, engineLookup_engineDelete _ _ _ hw]
    have : κ a ≠ k := hnm a (List.mem_cons_self _ _)
    simp [this]

theorem lookup_delFold_mem (κ : Nat → String) (e : EngineT) (l : List Nat)
    (k : String) (hw : WF e) (hm : ∃ j ∈ l, κ j = k) :
    engineLookup (delFold κ e l) k = none := by
  induction l generalizing e with
  | nil => simp at hm
  | cons a t ih =>
    rw [show delFold κ e (a :: t) = delFold κ (engineDelete e (κ a)).2 t from rfl]
    by_cases hit : ∃ j ∈ t, κ j = k
    · exact ih _ (WF_engineDelete _ _ hw) hit
    · have hak : κ a = k := by
        rcases hm with ⟨j, hj, hkj⟩
        rcases List.mem_cons.mp hj with h | h
        · exact h ▸ hkj
        · exact absurd ⟨j, h, hkj⟩ hit
      have hnm : ∀ j ∈ t, κ j ≠ k := fun j hj hkj => hit ⟨j, hj, hkj⟩
      rw [lookup_delFold_not_mem κ _ t k (WF_engineDelete _ _ hw) hnm,
        engineLookup_engineDelete _ _ _ hw, hak]
      simp

end engine

namespace engine

set_option maxRecDepth 100000 in
theorem parseKey_mkKey : ∀ i ∈ List.range 1000, parseKey (mkKey i) = some i := by
  have h : ((List.range 1000).all fun i => parseKey (mkKey i) == some i) = true := by decide
  intro i hi
  have := List.all_eq_true.mp h i hi
  simpa using this

theorem mkKey_inj {i j : Nat} (hi : i < 1000) (hj : j < 1000)
    (h : mkKey i = mkKey j) : i = j := by
  have h1 := parseKey_mkKey i (List.mem_range.mpr hi)
  have h2 := parseKey_mkKey j (List.mem_range.mpr hj)
  rw [h, h2] at h1
  exact (Option.some.injEq _ _ ▸ h1).symm

theorem scenario_lookup (i : Nat) (hi : i < 1000) :
    engineLookup testEngineFinal (mkKey i) =
      if i % 2 = 0 then none else some (mkVal i) := by
  have hwAfter : WF testEngineAfterSets :=
    WF_setFold _ _ _ _ WF_newInMemoryEngine
  by_cases hev : i % 2 = 0
  · have hmem : i ∈ (List.range 500).map (fun j => 2 * j) :=
      List.mem_map.mpr ⟨i / 2, List.mem_range.mpr (by omega), by omega⟩
    rw [show testEngineFinal =
        delFold mkKey testEngineAfterSets ((List.range 500).map (fun j => 2 * j)) from rfl,
      lookup_delFold_mem mkKey _ _ _ hwAfter ⟨i, hmem, rfl⟩]
    simp [hev]
  · have hnm : ∀ j ∈ (List.range 500).map (fun j => 2 * j), mkKey j ≠ mkKey i := by
      intro j hj hkj
      rcases List.mem_map.mp hj with ⟨j', hj', rfl⟩
      have hj2 : 2 * j' < 1000 := by
        have := List.mem_range.mp hj'
        omega
      have := mkKey_inj hj2 hi hkj
      omega
    rw [show testEngineFinal =
        delFold mkKey testEngineAfterSets ((List.range 500).map (fun j => 2 * j)) from rfl,
      lookup_delFold_not_mem mkKey _ _ _ hwAfter hnm]
    have hu : ∀ j ∈ List.range 1000, mkKey j = mkKey i → j = i := by
      intro j hj hkj
      exact mkKey_inj (List.mem_range.mp hj) hi hkj
    rw [show testEngineAfterSets =
        setFold mkKey mkVal newInMemoryEngine (List.range 1000) from rfl,
      lookup_setFold_mem mkKey mkVal _ _ i WF_newInMemoryEngine
        (List.mem_range.mpr hi) hu]
    simp [hev]

end engine





namespace engine

theorem getD_replicate_nil (n i : Nat) :
    (List.replicate n ([] : KV)).getD i [] = [] := by
  induction n generalizing i with
  | zero => cases i <;> simp [List.getD]
  | succ m ih =>
    cases i with
    | zero => simp [List.replicate, List.getD]
    | succ j => simp [List.replicate, List.getD, ih j]

theorem engineLookup_new (k : String) : engineLookup newInMemoryEngine k = none := by
  unfold engineLookup newInMemoryEngine
  rw [getD_replicate_nil]
  rfl

end engine

namespace storage

open engine wal

theorem WF_applyLog (e : EngineT) (l : Log) (hw : WF e) : WF (applyLog e l) := by
  unfold applyLog
  split_ifs <;>
    first
      | exact WF_engineSet _ _ _ hw
      | exact WF_engineDelete _ _ hw
      | exact hw

theorem applyLog_lookup (e : EngineT) (m : KV) (l : Log) (hw : WF e)
    (hr : ∀ k, engineLookup e k = mapGet m k) (k : String) :
    engineLookup (applyLog e l) k = mapGet (specApplyRecord m l) k := by
  unfold applyLog specApplyRecord OperationSet OperationDel
  by_cases hset : l.operation = "SET"
  · by_cases har : 2 ≤ l.args.length
    · simp only [hset, har, eq_self_iff_true, if_true, true_and, and_true, and_self]
      rw [engineLookup_engineSet _ _ _ _ hw, mapGet_mapSet]
      split_ifs with hk
      · rfl
      · exact hr k
    · simp [hset, har]
      exact hr k
  · by_cases hdel : l.operation = "DEL"
    · by_cases har : 1 ≤ l.args.length
      · simp only [hdel, har, eq_self_iff_true, if_true, true_and, and_true, and_self,
          show (("DEL" : String) = "SET") = False by simp, false_and, if_false]
        rw [engineLookup_engineDelete _ _ _ hw, mapGet_mapDel]
        split_ifs with hk
        · rfl
        · exact hr k
      · simp [hdel, har]
        exact hr k
    · simp [hset, hdel]
      exact hr k

theorem recoverFold_lookup (logs : List Log) (e : EngineT) (m : KV) (hw : WF e)
    (hr : ∀ k, engineLookup e k = mapGet m k) :
    WF (recoverFromWAL e logs) ∧
      ∀ k, engineLookup (recoverFromWAL e logs) k =
        mapGet (logs.foldl specApplyRecord m) k := by
  induction logs generalizing e m with
  | nil => exact ⟨hw, hr⟩
  | cons l rest ih =>
    exact ih (applyLog e l) (specApplyRecord m l) (WF_applyLog _ _ hw)
      (applyLog_lookup _ _ _ hw hr)

end storage

namespace wal

theorem fsFrames_fsAppend (fs : FileSys) (name name' : String) (f : Frame) :
    fsFrames (fsAppend fs name f) name' =
      if name = name' then fsFrames fs name' ++ [f] else fsFrames fs name' := by
  induction fs with
  | nil =>
    by_cases h : name = name' <;> simp [fsAppend, fsFrames, h]
  | cons p rest ih =>
    obtain ⟨n, c⟩ := p
    by_cases hn : n = name
    · subst hn
      by_cases h : n = name' <;> simp [fsAppend, fsFrames, h]
    · by_cases h : n = name'
      · subst h
        have hne : ¬ name = n := fun hh => hn hh.symm
        simp [fsAppend, fsFrames, hn, hne, ih]
      · simp [fsAppend, fsFrames, hn, h, ih]

theorem completeAllWithError_eq (batch : List WriteRequest) (e : String) :
    completeAllWithError batch e = List.replicate batch.length (some e) := by
  simp [completeAllWithError, List.map_const]

theorem completeAllWithSuccess_eq (batch : List WriteRequest) :
    completeAllWithSuccess batch = List.replicate batch.length none := by
  simp [completeAllWithSuccess, List.map_const]

end wal

namespace replication

theorem contains_iff (S : List String) (L : String) :
    contains S L = true ↔ L ∈ S := by
  induction S with
  | nil => simp [contains]
  | cons a t ih =>
    by_cases h : a = L
    · simp [contains, h]
    · have hne : ¬ L = a := fun hh => h hh.symm
      simp [contains, h, ih, hne]

theorem scanNext_none_iff (S : List String) (L : String) :
    scanNext L S = none ↔ L ∉ S.dropLast := by
  induction S with
  | nil => simp [scanNext]
  | cons a t ih =>
    cases t with
    | nil => simp [scanNext]
    | cons b rest =>
      by_cases h : a = L
      · simp [scanNext, h]
      · have hne : ¬ L = a := fun hh => h hh.symm
        simp [scanNext, h, ih, hne, List.dropLast]

theorem scanNext_some_of_get (S : List String) (L : String) (hnd : S.Nodup)
    (i : Nat) (h : i + 1 < S.length) (hL : S.get ⟨i, by omega⟩ = L) :
    scanNext L S = some (S.get ⟨i + 1, h⟩) := by
  induction S generalizing i with
  | nil => simp at h
  | cons a t ih =>
    cases t with
    | nil => simp at h
    | cons b rest =>
      cases i with
      | zero =>
        have ha : a = L := hL
        simp [scanNext, ha]
      | succ n =>
        have hb : n < (b :: rest).length := by
          simp only [List.length_cons] at h ⊢
          omega
        have hmem : L ∈ b :: rest := by
          have : (b :: rest).get ⟨n, hb⟩ = L := hL
          exact this ▸ List.get_mem _ _ _
        have hna : ¬ a = L := by
          intro hh
          subst hh
          exact (List.nodup_cons.mp hnd).1 hmem
        have hstep : scanNext L (a :: b :: rest) = scanNext L (b :: rest) := by
          simp [scanNext, hna]
        rw [hstep]
        exact ih (List.nodup_cons.mp hnd).2 n
          (by simp only [List.length_cons] at h ⊢; omega) hL

end replication

open engine wal storage replication

/-- C1: For every key k and value v, `Engine.Set(k, v)` binds k to v so
that a subsequent `Get(k)` returns v; `Get(k)` returns `KeyNotFound`
exactly when k is not in the map; `Delete(k)` returns `KeyNotFound`
when k is absent, and otherwise removes k and returns ok so that a
subsequent `Get(k)` returns `KeyNotFound`. -/
theorem C1_engine_roundtrip (e : EngineT) (k v : String) (hw : WF e) :
    engineGet (engineSet e k v) k = .ok v ∧
    (engineGet e k = .error keyNotFoundMsg ↔ engineLookup e k = none) ∧
    (engineLookup e k = none → engineDelete e k = (some keyNotFoundMsg, e)) ∧
    ((engineLookup e k).isSome →
      (engineDelete e k).1 = none ∧
      engineGet (engineDelete e k).2 k = .error keyNotFoundMsg) := by
  refine ⟨?_, ?_, (engineDelete_spec e k).1, fun hs => ⟨(engineDelete_spec e k).2 hs, ?_⟩⟩
  · rw [engineGet_eq_lookup, engineLookup_engineSet _ _ _ _ hw]
    simp
  · rw [engineGet_eq_lookup]
    cases h : engineLookup e k <;> simp [h]
  · rw [engineGet_eq_lookup, engineLookup_engineDelete _ _ _ hw]
    simp

/-- Witness for C1 at a concrete engine and key. -/
theorem C1_engine_roundtrip_witness :
    engineGet (engineSet newInMemoryEngine "a" "1") "a" = .ok "1" ∧
    (engineGet newInMemoryEngine "a" = .error keyNotFoundMsg ↔
      engineLookup newInMemoryEngine "a" = none) ∧
    (engineLookup newInMemoryEngine "a" = none →
      engineDelete newInMemoryEngine "a" = (some keyNotFoundMsg, newInMemoryEngine)) ∧
    ((engineLookup newInMemoryEngine "a").isSome →
      (engineDelete newInMemoryEngine "a").1 = none ∧
      engineGet (engineDelete newInMemoryEngine "a").2 "a" = .error keyNotFoundMsg) :=
  C1_engine_roundtrip newInMemoryEngine "a" "1" (by decide)

/-- C2: Constructing the storage façade with WAL enabled applies the
recovered records to the initially empty engine in list order, so the
engine state after construction equals the left fold of the records
over the empty map: a SET with ≥ 2 args inserts or overwrites, a DEL
with ≥ 1 arg removes, and a DEL of an absent key leaves the state
unchanged by that record (the fold is total, so construction
succeeds). -/
theorem C2_recovery_is_fold (logs : List Log) :
    (∀ k, engineLookup (recoverFromWAL newInMemoryEngine logs) k =
      mapGet (specFold logs) k) ∧
    (∀ (e : EngineT) (l : Log), WF e → l.operation = OperationDel →
      1 ≤ l.args.length → engineLookup e (l.args.getD 0 "") = none →
      applyLog e l = e) := by
  constructor
  · exact (recoverFold_lookup logs newInMemoryEngine [] WF_newInMemoryEngine
      (fun k => engineLookup_new k)).2
  · intro e l hw hop har hlk
    unfold applyLog
    have hne : ¬ l.operation = OperationSet := by
      rw [hop]
      decide
    rw [if_neg hne, if_pos hop, if_pos har]
    have := (engineDelete_spec e (l.args.getD 0 "")).1 hlk
    rw [this]

/-- Witness for C2 on a concrete record list containing an overwrite,
a DEL of a present key and a DEL of an absent key. -/
theorem C2_recovery_is_fold_witness :
    engineLookup (recoverFromWAL newInMemoryEngine
      [⟨0, "SET", ["a", "1"]⟩, ⟨1, "SET", ["a", "2"]⟩, ⟨2, "DEL", ["b"]⟩]) "a" =
      mapGet (specFold
        [⟨0, "SET", ["a", "1"]⟩, ⟨1, "SET", ["a", "2"]⟩, ⟨2, "DEL", ["b"]⟩]) "a" ∧
    applyLog newInMemoryEngine ⟨2, "DEL", ["b"]⟩ = newInMemoryEngine :=
  ⟨(C2_recovery_is_fold _).1 "a",
    (C2_recovery_is_fold []).2 newInMemoryEngine ⟨2, "DEL", ["b"]⟩
      (by decide) rfl (by decide) (by decide)⟩

/-- C7: If the WAL is enabled and the awaited WAL future of
`Storage.Set` or `Storage.Delete` resolves with an error, the operation
returns that error and the engine state is completely unchanged (the
record was pushed to the WAL queue, but the engine mutation is only
attempted after the future resolves with success). -/
theorem C7_wal_error_blocks_engine (st : SimpleStorage) (k v err : String)
    (hm : st.isMaster = true) (hw : st.walEnabled = true) :
    setOp st (some err) k v = (some err, walPush st OperationSet [k, v]) ∧
    (setOp st (some err) k v).2.engine = st.engine ∧
    delOp st (some err) k = (some err, walPush st OperationDel [k]) ∧
    (delOp st (some err) k).2.engine = st.engine := by
  unfold setOp delOp
  rw [hm, hw]
  simp [walPush]

/-- Witness for C7 at a concrete storage state. -/
theorem C7_wal_error_blocks_engine_witness :
    setOp ⟨newInMemoryEngine, true, true, 0, []⟩ (some "disk full") "k" "v" =
      (some "disk full", walPush ⟨newInMemoryEngine, true, true, 0, []⟩
        OperationSet ["k", "v"]) ∧
    (setOp ⟨newInMemoryEngine, true, true, 0, []⟩ (some "disk full") "k" "v").2.engine =
      newInMemoryEngine ∧
    delOp ⟨newInMemoryEngine, true, true, 0, []⟩ (some "disk full") "k" =
      (some "disk full", walPush ⟨newInMemoryEngine, true, true, 0, []⟩
        OperationDel ["k"]) ∧
    (delOp ⟨newInMemoryEngine, true, true, 0, []⟩ (some "disk full") "k").2.engine =
      newInMemoryEngine :=
  C7_wal_error_blocks_engine ⟨newInMemoryEngine, true, true, 0, []⟩ "k" "v" "disk full"
    rfl rfl

/-- C8: On a replica, `Storage.Set` and `Storage.Delete` return the
`WriteOnReplica` error and leave the whole storage state (engine and
WAL log) untouched, while `Storage.Get` is served from the local engine
exactly as on a primary. -/
theorem C8_replica_read_only (st : SimpleStorage) (k v : String)
    (walFut : Option String) (hm : st.isMaster = false) :
    setOp st walFut k v = (some writeOnReplicaMsg, st) ∧
    delOp st walFut k = (some writeOnReplicaMsg, st) ∧
    getOp st k = engineGet st.engine k ∧
    getOp st k = getOp { st with isMaster := true } k := by
  unfold setOp delOp getOp
  rw [hm]
  simp

/-- Witness for C8 at a concrete replica state. -/
theorem C8_replica_read_only_witness :
    setOp ⟨newInMemoryEngine, true, false, 0, []⟩ none "k" "v" =
      (some writeOnReplicaMsg, ⟨newInMemoryEngine, true, false, 0, []⟩) ∧
    delOp ⟨newInMemoryEngine, true, false, 0, []⟩ none "k" =
      (some writeOnReplicaMsg, ⟨newInMemoryEngine, true, false, 0, []⟩) ∧
    getOp ⟨newInMemoryEngine, true, false, 0, []⟩ "k" =
      engineGet newInMemoryEngine "k" ∧
    getOp ⟨newInMemoryEngine, true, false, 0, []⟩ "k" =
      getOp ⟨newInMemoryEngine, true, true, 0, []⟩ "k" :=
  C8_replica_read_only ⟨newInMemoryEngine, true, false, 0, []⟩ "k" "v" none rfl

/-- C9: For distinct keys k ≠ k', `Engine.Set(k, v)` and
`Engine.Delete(k)` leave the binding of k' unchanged; in particular,
inserting `key0..key999` and then deleting every even-indexed key
leaves exactly the odd-indexed keys readable with their values while
every even-indexed key returns `KeyNotFound`. -/
theorem C9_partition_independence :
    (∀ (e : EngineT) (k k' v : String), WF e → k ≠ k' →
      engineLookup (engineSet e k v) k' = engineLookup e k' ∧
      engineLookup (engineDelete e k).2 k' = engineLookup e k') ∧
    (∀ i, i < 1000 →
      (i % 2 = 1 → engineGet testEngineFinal (mkKey i) = .ok (mkVal i)) ∧
      (i % 2 = 0 → engineGet testEngineFinal (mkKey i) = .error keyNotFoundMsg)) := by
  constructor
  · intro e k k' v hw hne
    rw [engineLookup_engineSet _ _ _ _ hw, engineLookup_engineDelete _ _ _ hw]
    simp [hne]
  · intro i hi
    have h := scenario_lookup i hi
    constructor
    · intro hodd
      have hev : ¬ i % 2 = 0 := by omega
      rw [engineGet_eq_lookup, h, if_neg hev]
    · intro hev
      rw [engineGet_eq_lookup, h, if_pos hev]

/-- Witness for C9: the frame property at concrete keys, and keys 0 and
1 of the 1000-key scenario. -/
theorem C9_partition_independence_witness :
    engineLookup (engineSet newInMemoryEngine "a" "1") "b" =
      engineLookup newInMemoryEngine "b" ∧
    engineGet testEngineFinal (mkKey 1) = .ok (mkVal 1) ∧
    engineGet testEngineFinal (mkKey 0) = .error keyNotFoundMsg :=
  ⟨(C9_partition_independence.1 newInMemoryEngine "a" "b" "1" (by decide)
      (by decide)).1,
    (C9_partition_independence.2 1 (by norm_num)).1 (by norm_num),
    (C9_partition_independence.2 0 (by norm_num)).2 (by norm_num)⟩

/-- C10: For every key string, `getPartition` returns a value in
`[0, 16)`, so the partition index is always in bounds; the polynomial
hash wraps on signed 64-bit overflow, negative results are negated
(negation itself wrapping), and even the minimum-integer edge case —
whose wrapped negation is itself — yields remainder 0 modulo 16.
Determinism is inherent: the model is a pure function of the key. -/
theorem C10_getPartition_safe (key : String) :
    0 ≤ getPartition key ∧ getPartition key < 16 ∧
    partIdx key < numPartitions ∧
    (absStep (rawHash key) = -(2 ^ 63) → getPartition key = 0) := by
  refine ⟨(getPartition_bounds key).1, (getPartition_bounds key).2, partIdx_lt key, ?_⟩
  intro hmin
  unfold getPartition
  rw [hmin]
  decide

/-- Witness for C10 at a concrete key. -/
theorem C10_getPartition_safe_witness :
    0 ≤ getPartition "key42" ∧ getPartition "key42" < 16 ∧
    partIdx "key42" < numPartitions ∧
    (absStep (rawHash "key42") = -(2 ^ 63) → getPartition "key42" = 0) :=
  C10_getPartition_safe "key42"

set_option maxRecDepth 40000 in
/-- C3 (failing input): reopening a WAL over eleven rotated segments
sorts them by name, which puts `wal_10.log` before `wal_2.log`, so
`Recover()` returns LSNs out of order — the claimed strict increase
fails even though segment creation order had strictly increasing
LSNs. -/
theorem C3_recover_lsns_out_of_order :
    (recoverReopened c3Dir).map (·.lsn) = [0, 1, 10, 2, 3, 4, 5, 6, 7, 8, 9] ∧
    ¬ List.Pairwise (· < ·) ((recoverReopened c3Dir).map (·.lsn)) := by
  have h1 : (recoverReopened c3Dir).map (·.lsn) = [0, 1, 10, 2, 3, 4, 5, 6, 7, 8, 9] := by
    decide
  refine ⟨h1, ?_⟩
  rw [h1]
  decide

/-- `findNextSegment` when the slice is non-empty and the requested
name is non-empty: the result is decided by the search loop and the
membership test. -/
theorem findNextSegment_eq_match (S : List String) (L : String)
    (hS : S ≠ []) (hL : L ≠ "") :
    findNextSegment S L =
      match scanNext L S with
      | some nxt => nxt
      | none => if contains S L then "" else S.headD "" := by
  unfold findNextSegment
  have h1 : ¬ (S.isEmpty = true) := by
    cases S with
    | nil => exact absurd rfl hS
    | cons a t => simp
  rw [if_neg h1, if_neg hL]

/-- C4: next-segment selection on the primary, for every sorted segment
list S and requested last segment L: empty S → no segment; empty L →
S[0]; L at index i < |S|-1 → S[i+1]; L the last element → no segment;
L absent → S[0]. -/
theorem C4_findNextSegment_cases (S : List String) (L : String)
    (hs : List.Pairwise (fun a b => a < b) S) :
    (S = [] → findNextSegment S L = "") ∧
    (S ≠ [] → findNextSegment S "" = S.headD "") ∧
    (L ≠ "" → ∀ i (h : i + 1 < S.length),
      S.get ⟨i, by omega⟩ = L → findNextSegment S L = S.get ⟨i + 1, h⟩) ∧
    (L ≠ "" → S.getLast? = some L → findNextSegment S L = "") ∧
    (L ≠ "" → S ≠ [] → L ∉ S → findNextSegment S L = S.headD "") := by
  have hnd : S.Nodup := hs.imp (fun hab => ne_of_lt hab)
  refine ⟨?_, ?_, ?_, ?_, ?_⟩
  · intro h
    subst h
    rfl
  · intro hS
    unfold findNextSegment
    have h1 : ¬ (S.isEmpty = true) := by
      cases S with
      | nil => exact absurd rfl hS
      | cons a t => simp
    rw [if_neg h1, if_pos rfl]
  · intro hL i h hget
    have hS : S ≠ [] := by
      intro hnil
      rw [hnil] at h
      simp at h
    rw [findNextSegment_eq_match S L hS hL,
      scanNext_some_of_get S L hnd i h hget]
  · intro hL hlast
    have hS : S ≠ [] := by
      intro hnil
      rw [hnil] at hlast
      simp at hlast
    have hL_last : S.getLast hS = L := by
      rw [List.getLast?_eq_getLast S hS] at hlast
      exact Option.some.inj hlast
    have hdec : S.dropLast ++ [S.getLast hS] = S := List.dropLast_append_getLast hS
    have hnotdrop : L ∉ S.dropLast := by
      intro hmem
      have hnd' : (S.dropLast ++ [S.getLast hS]).Nodup := by
        rw [hdec]
        exact hnd
      have hdis := (List.nodup_append.mp hnd').2.2
      exact hdis hmem (hL_last ▸ List.mem_singleton_self L)
    have hmemS : L ∈ S := hL_last ▸ List.getLast_mem hS
    rw [findNextSegment_eq_match S L hS hL,
      (scanNext_none_iff S L).mpr hnotdrop]
    simp [(contains_iff S L).mpr hmemS]
  · intro hL hS hnm
    have hnotdrop : L ∉ S.dropLast := fun hmem =>
      hnm ((List.dropLast_sublist S).subset hmem)
    have hcf : contains S L = false := by
      cases hc : contains S L with
      | false => rfl
      | true => exact absurd ((contains_iff S L).mp hc) hnm
    rw [findNextSegment_eq_match S L hS hL,
      (scanNext_none_iff S L).mpr hnotdrop]
    simp [hcf]

/-- Witness for C4 on the two-segment slice `[wal_0.log, wal_1.log]`:
successor of the first segment, up-to-date on the last, first request,
stale name, and the empty slice. -/
theorem C4_findNextSegment_cases_witness :
    findNextSegment ["wal_0.log", "wal_1.log"] "wal_0.log" = "wal_1.log" ∧
    findNextSegment ["wal_0.log", "wal_1.log"] "wal_1.log" = "" ∧
    findNextSegment ["wal_0.log", "wal_1.log"] "" = "wal_0.log" ∧
    findNextSegment ["wal_0.log", "wal_1.log"] "stale" = "wal_0.log" ∧
    findNextSegment ([] : List String) "x" = "" := by
  have hsorted : List.Pairwise (fun a b : String => a < b) ["wal_0.log", "wal_1.log"] := by
    simp [String.lt_iff_toList_lt]
    decide
  refine ⟨?_, ?_, ?_, ?_, ?_⟩
  · exact (C4_findNextSegment_cases ["wal_0.log", "wal_1.log"] "wal_0.log"
      hsorted).2.2.1 (by decide) 0 (by decide) rfl
  · exact (C4_findNextSegment_cases ["wal_0.log", "wal_1.log"] "wal_1.log"
      hsorted).2.2.2.1 (by decide) rfl
  · exact (C4_findNextSegment_cases ["wal_0.log", "wal_1.log"] ""
      hsorted).2.1 (by decide)
  · exact (C4_findNextSegment_cases ["wal_0.log", "wal_1.log"] "stale"
      hsorted).2.2.2.2 (by decide) (by decide) (by decide)
  · exact (C4_findNextSegment_cases ([] : List String) "x" (by decide)).1 rfl

/-- C5: Before every batch write the WAL rotates exactly when
`currentSize + len(frame) + 1 > MaxSegmentSize`: it closes the active
file, creates `wal_<len(segments)>.log`, and writes the frame (with its
trailing newline) entirely to the new file; without rotation the frame
goes entirely to the current file.  Either way the frame lands as one
whole element of exactly one file, so no frame spans two segments. -/
theorem C5_writeBatch_rotation (encode : List Log → List Nat) (s : WALState)
    (batch : List WriteRequest) (data : List Nat) (hb : batch ≠ [])
    (hd : data = encode (batch.map (·.log))) :
    ((s.currentSize + (Int.ofNat data.length + 1) > s.maxSegmentSize) →
      ((writeBatch encode noFault s batch).1.currentName =
          walSegmentName s.dataDirectory s.segments.length ∧
        (writeBatch encode noFault s batch).1.segments =
          s.segments ++ [walSegmentName s.dataDirectory s.segments.length] ∧
        fsFrames (writeBatch encode noFault s batch).1.files
            (walSegmentName s.dataDirectory s.segments.length) =
          fsFrames s.files (walSegmentName s.dataDirectory s.segments.length) ++
            [data ++ [10]] ∧
        ∀ name, name ≠ walSegmentName s.dataDirectory s.segments.length →
          fsFrames (writeBatch encode noFault s batch).1.files name =
            fsFrames s.files name)) ∧
    ((¬ s.currentSize + (Int.ofNat data.length + 1) > s.maxSegmentSize) →
      ((writeBatch encode noFault s batch).1.currentName = s.currentName ∧
        (writeBatch encode noFault s batch).1.segments = s.segments ∧
        fsFrames (writeBatch encode noFault s batch).1.files s.currentName =
          fsFrames s.files s.currentName ++ [data ++ [10]] ∧
        ∀ name, name ≠ s.currentName →
          fsFrames (writeBatch encode noFault s batch).1.files name =
            fsFrames s.files name)) := by
  have hbe : ¬ (batch.isEmpty = true) := by
    cases batch with
    | nil => exact absurd rfl hb
    | cons a t => simp
  subst hd
  unfold writeBatch noFault writeFrame
  rw [if_neg hbe]
  constructor
  · intro hrot
    rw [if_pos hrot]
    refine ⟨rfl, rfl, ?_, ?_⟩
    · rw [fsFrames_fsAppend]
      simp
    · intro name hne
      rw [fsFrames_fsAppend]
      have : ¬ (walSegmentName s.dataDirectory s.segments.length = name) :=
        fun hh => hne hh.symm
      simp [this]
  · intro hrot
    rw [if_neg hrot]
    refine ⟨rfl, rfl, ?_, ?_⟩
    · rw [fsFrames_fsAppend]
      simp
    · intro name hne
      rw [fsFrames_fsAppend]
      have : ¬ (s.currentName = name) := fun hh => hne hh.symm
      simp [this]

/-- Witness for C5: on `c5State` a two-byte frame rotates into
`wal/wal_1.log` and the whole frame lands there. -/
theorem C5_writeBatch_rotation_witness :
    (writeBatch (fun _ => [65, 66]) noFault c5State [⟨⟨0, "SET", ["k", "v"]⟩⟩]).1.segments =
      c5State.segments ++ [walSegmentName c5State.dataDirectory c5State.segments.length] ∧
    fsFrames (writeBatch (fun _ => [65, 66]) noFault c5State
        [⟨⟨0, "SET", ["k", "v"]⟩⟩]).1.files
        (walSegmentName c5State.dataDirectory c5State.segments.length) =
      fsFrames c5State.files
        (walSegmentName c5State.dataDirectory c5State.segments.length) ++
        [[65, 66] ++ [10]] := by
  have h := C5_writeBatch_rotation (fun _ => [65, 66]) c5State
    [⟨⟨0, "SET", ["k", "v"]⟩⟩] [65, 66] (by decide) rfl
  exact ⟨(h.1 (by decide)).2.1, (h.1 (by decide)).2.2.1⟩

/-- The head of a non-trivial replicated list. -/
theorem head_replicate_pos {α : Type} (n : Nat) (x : α) (hn : n ≠ 0) :
    (List.replicate n x).head? = some x := by
  cases n with
  | zero => exact absurd rfl hn
  | succ m => simp [List.replicate]

/-- C6: Every per-record future of a batch handed to the WAL writer
resolves with one common outcome: the resolution list is a constant
list; on an injected serialization error, rotation-open error, write
error or fsync error every future of the batch resolves with exactly
that error (the earlier stage taking precedence, and the open error
only when the rotation check fired); and a success outcome occurs only
when serialization, any required rotation open, the write and the
fsync all succeeded and the whole frame (with trailing newline) has
been appended to the active segment file. -/
theorem C6_writeBatch_futures_uniform (encode : List Log → List Nat)
    (env : FaultEnv) (s : WALState) (batch : List WriteRequest) :
    (∃ r, (writeBatch encode env s batch).2 = List.replicate batch.length r) ∧
    (batch ≠ [] → ∀ e : String,
      (env.marshalErr = some e →
        (writeBatch encode env s batch).2 = List.replicate batch.length (some e)) ∧
      (env.marshalErr = none →
        s.currentSize + (Int.ofNat (encode (batch.map (·.log))).length + 1) >
          s.maxSegmentSize →
        env.openErr = some e →
        (writeBatch encode env s batch).2 = List.replicate batch.length (some e)) ∧
      (env.marshalErr = none →
        (s.currentSize + (Int.ofNat (encode (batch.map (·.log))).length + 1) >
            s.maxSegmentSize →
          env.openErr = none) →
        env.writeErr = some e →
        (writeBatch encode env s batch).2 = List.replicate batch.length (some e)) ∧
      (env.marshalErr = none →
        (s.currentSize + (Int.ofNat (encode (batch.map (·.log))).length + 1) >
            s.maxSegmentSize →
          env.openErr = none) →
        env.writeErr = none → env.syncErr = some e →
        (writeBatch encode env s batch).2 = List.replicate batch.length (some e))) ∧
    (batch ≠ [] → (writeBatch encode env s batch).2.head? = some none →
      env.marshalErr = none ∧
      (s.currentSize + (Int.ofNat (encode (batch.map (·.log))).length + 1) >
          s.maxSegmentSize →
        env.openErr = none) ∧
      env.writeErr = none ∧ env.syncErr = none ∧
      fsFrames (writeBatch encode env s batch).1.files
          (writeBatch encode env s batch).1.currentName =
        fsFrames s.files (writeBatch encode env s batch).1.currentName ++
          [encode (batch.map (·.log)) ++ [10]]) := by
  cases hbe : batch.isEmpty with
  | true =>
    have hbnil : batch = [] := by
      cases batch with
      | nil => rfl
      | cons a t => simp at hbe
    subst hbnil
    exact ⟨⟨none, by simp [writeBatch]⟩, fun hne => absurd rfl hne,
      fun hne _ => absurd rfl hne⟩
  | false =>
    have hlen : batch.length ≠ 0 := by
      cases batch with
      | nil => simp at hbe
      | cons a t => simp
    unfold writeBatch writeFrame
    rw [hbe]
    simp only [Bool.false_eq_true, if_false]
    cases hm : env.marshalErr with
    | some e0 =>
      refine ⟨⟨some e0, by exact completeAllWithError_eq batch e0⟩,
        fun _ e => ⟨?_, ?_, ?_, ?_⟩, fun _ hh => ?_⟩
      · intro hme
        have he : e0 = e := Option.some.inj hme
        subst he
        exact completeAllWithError_eq batch e0
      · intro hmn
        exact absurd hmn (by simp)
      · intro hmn
        exact absurd hmn (by simp)
      · intro hmn
        exact absurd hmn (by simp)
      · have hh2 : (completeAllWithError batch e0).head? = some none := hh
        rw [completeAllWithError_eq, head_replicate_pos _ _ hlen] at hh2
        exact absurd (Option.some.inj hh2) (by simp)
    | none =>
      split_ifs with hrot
      · cases ho : env.openErr with
        | some e0 =>
          refine ⟨⟨some e0, by exact completeAllWithError_eq batch e0⟩,
            fun _ e => ⟨?_, ?_, ?_, ?_⟩, fun _ hh => ?_⟩
          · intro hme
            exact absurd hme (by simp)
          · intro _ _ hoe
            have he : e0 = e := Option.some.inj hoe
            subst he
            exact completeAllWithError_eq batch e0
          · intro _ hop
            exact absurd (hop hrot) (by simp)
          · intro _ hop
            exact absurd (hop hrot) (by simp)
          · have hh2 : (completeAllWithError batch e0).head? = some none := hh
            rw [completeAllWithError_eq, head_replicate_pos _ _ hlen] at hh2
            exact absurd (Option.some.inj hh2) (by simp)
        | none =>
          cases hwr : env.writeErr with
          | some e0 =>
            refine ⟨⟨some e0, by exact completeAllWithError_eq batch e0⟩,
              fun _ e => ⟨?_, ?_, ?_, ?_⟩, fun _ hh => ?_⟩
            · intro hme
              exact absurd hme (by simp)
            · intro _ _ hoe
              exact absurd hoe (by simp)
            · intro _ _ hwe
              have he : e0 = e := Option.some.inj hwe
              subst he
              exact completeAllWithError_eq batch e0
            · intro _ _ hwn
              exact absurd hwn (by simp)
            · have hh2 : (completeAllWithError batch e0).head? = some none := hh
              rw [completeAllWithError_eq, head_replicate_pos _ _ hlen] at hh2
              exact absurd (Option.some.inj hh2) (by simp)
          | none =>
            cases hsy : env.syncErr with
            | some e0 =>
              refine ⟨⟨some e0, by exact completeAllWithError_eq batch e0⟩,
                fun _ e => ⟨?_, ?_, ?_, ?_⟩, fun _ hh => ?_⟩
              · intro hme
                exact absurd hme (by simp)
              · intro _ _ hoe
                exact absurd hoe (by simp)
              · intro _ _ hwe
                exact absurd hwe (by simp)
              · intro _ _ _ hse
                have he : e0 = e := Option.some.inj hse
                subst he
                exact completeAllWithError_eq batch e0
              · have hh2 : (completeAllWithError batch e0).head? = some none := hh
                rw [completeAllWithError_eq, head_replicate_pos _ _ hlen] at hh2
                exact absurd (Option.some.inj hh2) (by simp)
            | none =>
              refine ⟨⟨none, by exact completeAllWithSuccess_eq batch⟩,
                fun _ e => ⟨?_, ?_, ?_, ?_⟩,
                fun _ _ => ⟨rfl, fun _ => rfl, rfl, rfl, ?_⟩⟩
              · intro hme
                exact absurd hme (by simp)
              · intro _ _ hoe
                exact absurd hoe (by simp)
              · intro _ _ hwe
                exact absurd hwe (by simp)
              · intro _ _ _ hse
                exact absurd hse (by simp)
              · show fsFrames
                    (fsAppend s.files (walSegmentName s.dataDirectory s.segments.length)
                      (encode (batch.map (·.log)) ++ [10]))
                    (walSegmentName s.dataDirectory s.segments.length) =
                  fsFrames s.files (walSegmentName s.dataDirectory s.segments.length) ++
                    [encode (batch.map (·.log)) ++ [10]]
                rw [fsFrames_fsAppend]
                simp
      · cases hwr : env.writeErr with
        | some e0 =>
          refine ⟨⟨some e0, by exact completeAllWithError_eq batch e0⟩,
            fun _ e => ⟨?_, ?_, ?_, ?_⟩, fun _ hh => ?_⟩
          · intro hme
            exact absurd hme (by simp)
          · intro _ hr
            exact absurd hr hrot
          · intro _ _ hwe
            have he : e0 = e := Option.some.inj hwe
            subst he
            exact completeAllWithError_eq batch e0
          · intro _ _ hwn
            exact absurd hwn (by simp)
          · have hh2 : (completeAllWithError batch e0).head? = some none := hh
            rw [completeAllWithError_eq, head_replicate_pos _ _ hlen] at hh2
            exact absurd (Option.some.inj hh2) (by simp)
        | none =>
          cases hsy : env.syncErr with
          | some e0 =>
            refine ⟨⟨some e0, by exact completeAllWithError_eq batch e0⟩,
              fun _ e => ⟨?_, ?_, ?_, ?_⟩, fun _ hh => ?_⟩
            · intro hme
              exact absurd hme (by simp)
            · intro _ hr
              exact absurd hr hrot
            · intro _ _ hwe
              exact absurd hwe (by simp)
            · intro _ _ _ hse
              have he : e0 = e := Option.some.inj hse
              subst he
              exact completeAllWithError_eq batch e0
            · have hh2 : (completeAllWithError batch e0).head? = some none := hh
              rw [completeAllWithError_eq, head_replicate_pos _ _ hlen] at hh2
              exact absurd (Option.some.inj hh2) (by simp)
          | none =>
            refine ⟨⟨none, by exact completeAllWithSuccess_eq batch⟩,
              fun _ e => ⟨?_, ?_, ?_, ?_⟩,
              fun _ _ => ⟨rfl, fun hr => absurd hr hrot, rfl, rfl, ?_⟩⟩
            · intro hme
              exact absurd hme (by simp)
            · intro _ hr
              exact absurd hr hrot
            · intro _ _ hwe
              exact absurd hwe (by simp)
            · intro _ _ _ hse
              exact absurd hse (by simp)
            · show fsFrames
                  (fsAppend s.files s.currentName (encode (batch.map (·.log)) ++ [10]))
                  s.currentName =
                fsFrames s.files s.currentName ++ [encode (batch.map (·.log)) ++ [10]]
              rw [fsFrames_fsAppend]
              simp

/-- Witness for C6: a write-error environment resolves both futures of
a two-record batch with exactly that error, and in the no-fault
environment (where the head future resolves with success) the whole
frame is on disk in the active segment. -/
theorem C6_writeBatch_futures_uniform_witness :
    (writeBatch (fun _ => [65, 66]) ⟨none, none, some "disk full", none⟩ c5State
      [⟨⟨0, "SET", ["k", "v"]⟩⟩, ⟨⟨1, "DEL", ["k"]⟩⟩]).2 =
        List.replicate 2 (some "disk full") ∧
    fsFrames (writeBatch (fun _ => [65, 66]) noFault c5State
        [⟨⟨0, "SET", ["k", "v"]⟩⟩, ⟨⟨1, "DEL", ["k"]⟩⟩]).1.files
        (writeBatch (fun _ => [65, 66]) noFault c5State
          [⟨⟨0, "SET", ["k", "v"]⟩⟩, ⟨⟨1, "DEL", ["k"]⟩⟩]).1.currentName =
      fsFrames c5State.files
          (writeBatch (fun _ => [65, 66]) noFault c5State
            [⟨⟨0, "SET", ["k", "v"]⟩⟩, ⟨⟨1, "DEL", ["k"]⟩⟩]).1.currentName ++
        [[65, 66] ++ [10]] :=
  ⟨(((C6_writeBatch_futures_uniform (fun _ => [65, 66])
      ⟨none, none, some "disk full", none⟩ c5State
      [⟨⟨0, "SET", ["k", "v"]⟩⟩, ⟨⟨1, "DEL", ["k"]⟩⟩]).2.1 (by decide)
        "disk full").2.2.1 rfl (fun _ => rfl) rfl),
    (((C6_writeBatch_futures_uniform (fun _ => [65, 66]) noFault c5State
      [⟨⟨0, "SET", ["k", "v"]⟩⟩, ⟨⟨1, "DEL", ["k"]⟩⟩]).2.2 (by decide)
        (by decide)).2.2.2.2)⟩
